import Mathlib

/-!
Verification of the preference scoring and ranking engine
(`HouseScorer.score_listings` in `src/ml/scorer.py`) of the homepilot
repository, as a shallow embedding in Lean 4.

Modelling conventions:
* Python/pandas floats are modelled by `ℚ` (exact arithmetic).
* A listing is a dict; a numeric field is `Option Val`, where `none`
  models an absent key, `some Val.vnull` a key held with a null value
  (pandas turns it into NaN), and `some (Val.vnum q)` a numeric value.
* `pd.DataFrame(listings)` has a column for a key iff at least one
  input dict carries the key; accessing a missing column
  (`df["price"]` when no dict has "price") raises `KeyError`, which we
  model with `Except.error`.
* Comparisons against NaN are false; arithmetic on NaN yields NaN;
  both are modelled by `Option ℚ` with `none` standing for NaN.
-/

set_option maxRecDepth 1024

namespace HomePilot

/-- A value stored under a key of a listing dict: either null (NaN once in
a DataFrame) or a number. -/
inductive Val where
  | vnull : Val
  | vnum : ℚ → Val
deriving DecidableEq

/-- The numeric content of a field: `none` when the key is absent or holds
null (both become NaN in the DataFrame column). -/
def numOf : Option Val → Option ℚ
  | some (Val.vnum q) => some q
  | _ => none

/-- A listing record (`src/ml/scorer.py` consumes dicts with these numeric
keys; all other entries — address, city, state, zip, property type, url —
are carried in `attrs` and never inspected by the scorer). -/
structure Listing where
  price : Option Val := none
  beds : Option Val := none
  baths : Option Val := none
  sqft : Option Val := none
  year_built : Option Val := none
  distance_to_downtown : Option Val := none
  attrs : List (String × String) := []
deriving DecidableEq

/-- The `priorities` weight map over the five criteria keys
`price, location, size, bedrooms, age`; a key absent from the user's dict
reads as `0` via `priorities.get(key, 0)`. -/
structure Priorities where
  price : ℚ := 0
  location : ℚ := 0
  size : ℚ := 0
  bedrooms : ℚ := 0
  age : ℚ := 0
deriving DecidableEq

/-- `user_preferences`: hard constraints (each `none` when the key is
absent) and the weights map. -/
structure Preferences where
  max_price : Option ℚ := none
  min_beds : Option ℚ := none
  min_baths : Option ℚ := none
  priorities : Priorities := {}
deriving DecidableEq

/-- A row of the returned `df.to_dict("records")`: the listing's own
fields plus the appended `score` and `rank` columns. -/
structure ScoredListing where
  listing : Listing
  score : ℚ
  rank : ℕ
deriving DecidableEq

/-- A DataFrame built from `listings` has column `f` iff some input dict
carries the key (even with a null value). -/
def hasCol (listings : List Listing) (f : Listing → Option Val) : Bool :=
  listings.any (fun l => (f l).isSome)

/-- The hard filter of `score_listings` (lines 46–50):
`price <= max_price_default_inf`, `beds >= min_beds_default_0`,
`baths >= min_baths_default_0`; a NaN entry fails every comparison. -/
def passesFilter (p : Preferences) (l : Listing) : Bool :=
  (match numOf l.price, p.max_price with
   | some pr, some m => decide (pr ≤ m)
   | some _, none => true
   | none, _ => false) &&
  (match numOf l.beds with
   | some b => decide (p.min_beds.getD 0 ≤ b)
   | none => false) &&
  (match numOf l.baths with
   | some b => decide (p.min_baths.getD 0 ≤ b)
   | none => false)

/-- The non-NaN entries of a numeric series. -/
def valsOf (xs : List (Option ℚ)) : List ℚ := xs.filterMap id

/-- Whether `series.std() == 0` holds in pandas: the sample standard
deviation over the non-NaN entries is `0` exactly when there are at least
two of them and they are all equal (with zero or one entries the std is
NaN, and `NaN == 0` is false). -/
def stdIsZero (xs : List (Option ℚ)) : Bool :=
  match valsOf xs with
  | [] => false
  | [_] => false
  | v :: vs => vs.all (fun x => x == v)

/-- `series.min()` over the non-NaN entries (`none` when all are NaN). -/
def seriesMin : List ℚ → Option ℚ
  | [] => none
  | x :: xs => some (xs.foldl min x)

/-- `series.max()` over the non-NaN entries (`none` when all are NaN). -/
def seriesMax : List ℚ → Option ℚ
  | [] => none
  | x :: xs => some (xs.foldl max x)

/-- `HouseScorer._normalize` (lines 98–102): if `series.std() == 0` or the
series is empty, a zero series of the same length replaces it (zeros also
at NaN positions); otherwise `(series - min) / (max - min)`, which is NaN
at the NaN positions, NaN everywhere when every entry is NaN (the min is
then NaN), and NaN everywhere when `max = min` (a `0/0`, which happens
exactly when a single non-NaN entry remains, since `std` of it is NaN). -/
def normalize (xs : List (Option ℚ)) : List (Option ℚ) :=
  if stdIsZero xs || xs.length == 0 then
    xs.map (fun _ => some 0)
  else
    match seriesMin (valsOf xs), seriesMax (valsOf xs) with
    | some mn, some mx =>
        if mn == mx then xs.map (fun _ => none)
        else xs.map (fun o => o.map (fun x => (x - mn) / (mx - mn)))
    | _, _ => xs.map (fun _ => none)

/-- `100 - normalized * 100`, the inverted component shape (price,
location, bedrooms, age). -/
def invScore (ns : List (Option ℚ)) : List (Option ℚ) :=
  ns.map (Option.map (fun n => 100 - n * 100))

/-- `normalized * 100`, the direct component shape (size). -/
def posScore (ns : List (Option ℚ)) : List (Option ℚ) :=
  ns.map (Option.map (fun n => n * 100))

/-- The bedroom component column computed by the code (lines 72–75):
`target_beds = user_preferences.get("min_beds", 3)` — note the default is
`3` — then `100 - normalize(|beds - target_beds|) * 100` over the
filtered set. -/
def bedroomComponent (p : Preferences) (F : List Listing) : List (Option ℚ) :=
  invScore (normalize (F.map (fun l =>
    (numOf l.beds).map (fun b => |b - p.min_beds.getD 3|))))

/-- Modelled from the spec's words for comparison (claim C7): the bedroom
component with the minimum-bedroom target defaulting to zero when absent
from the preferences. -/
def specBedroomComponent (p : Preferences) (F : List Listing) : List (Option ℚ) :=
  invScore (normalize (F.map (fun l =>
    (numOf l.beds).map (fun b => |b - p.min_beds.getD 0|))))

/-- The component columns of the `scores` DataFrame (lines 57–81),
each paired with the weight the summation loop (lines 84–88) multiplies
it by: the loop looks up `priorities.get(component_name.replace("_score", ""), 0)`,
which is the criterion's own weight for `price_score`, `location_score`,
`size_score` and `age_score`, but for `bedroom_score` the stripped name is
`"bedroom"`, a key not among the five criteria keys of the priorities
map, so that lookup defaults to `0`. A column is created only when the
source attribute's column exists and the criterion's priority is
strictly positive. -/
def activeComponents (listings : List Listing) (p : Preferences)
    (F : List Listing) : List (ℚ × List (Option ℚ)) :=
  (if hasCol listings (fun l => l.price) && decide (0 < p.priorities.price) then
     [(p.priorities.price, invScore (normalize (F.map (fun l => numOf l.price))))]
   else [])
  ++ (if hasCol listings (fun l => l.distance_to_downtown) && decide (0 < p.priorities.location) then
     [(p.priorities.location, invScore (normalize (F.map (fun l => numOf l.distance_to_downtown))))]
   else [])
  ++ (if hasCol listings (fun l => l.sqft) && decide (0 < p.priorities.size) then
     [(p.priorities.size, posScore (normalize (F.map (fun l => numOf l.sqft))))]
   else [])
  ++ (if hasCol listings (fun l => l.beds) && decide (0 < p.priorities.bedrooms) then
     [(0, bedroomComponent p F)]
   else [])
  ++ (if hasCol listings (fun l => l.year_built) && decide (0 < p.priorities.age) then
     [(p.priorities.age, invScore (normalize (F.map (fun l =>
        some (2024 - ((numOf l.year_built).getD 1900))))))]
   else [])

/-- One pass of the summation loop (lines 84–88): fold
`acc + component.fillna(50) * weight` over the component columns. -/
def finalScoresAux (comps : List (ℚ × List (Option ℚ))) (acc : List ℚ) : List ℚ :=
  match comps with
  | [] => acc
  | wc :: rest =>
      finalScoresAux rest
        (List.zipWith (fun a o => a + (Option.getD o 50) * wc.1) acc wc.2)

/-- The summation loop (lines 84–88): starting from `np.zeros(len(df))`,
add `component.fillna(50) * weight` for every component column. -/
def finalScores (comps : List (ℚ × List (Option ℚ))) (n : ℕ) : List ℚ :=
  finalScoresAux comps (List.replicate n 0)

/-- Round half to even to an integer (the rounding mode of
`numpy.round`). -/
def roundHalfEven (q : ℚ) : ℤ :=
  if q - ⌊q⌋ < 1 / 2 then ⌊q⌋
  else if 1 / 2 < q - ⌊q⌋ then ⌊q⌋ + 1
  else if Even ⌊q⌋ then ⌊q⌋ else ⌊q⌋ + 1

/-- `.round(2)`: round half to even at the second decimal place. -/
def round2 (q : ℚ) : ℚ := (roundHalfEven (q * 100) : ℚ) / 100

/-- `df["score"].rank(ascending=False, method="dense")`: one plus the
number of distinct score values strictly greater than the given one. -/
def denseRank (scores : List ℚ) (s : ℚ) : ℕ :=
  1 + (scores.toFinset.filter (fun x => s < x)).card

/-- Insert into a descending-by-score list, keeping it descending. -/
def insertDesc (x : ScoredListing) : List ScoredListing → List ScoredListing
  | [] => [x]
  | y :: ys => if x.score < y.score then y :: insertDesc x ys else x :: y :: ys

/-- `df.sort_values("score", ascending=False)` (line 94): sort the rows by
descending score (the relative order of tied rows is implementation
defined in pandas; we model a stable sort). -/
def sortDesc : List ScoredListing → List ScoredListing
  | [] => []
  | x :: xs => insertDesc x (sortDesc xs)

/-- The filtered DataFrame (lines 46–50). -/
def filteredOf (listings : List Listing) (p : Preferences) : List Listing :=
  listings.filter (fun l => passesFilter p l)

/-- The rounded `df["score"]` column (line 90). -/
def scoresOf (listings : List Listing) (p : Preferences) : List ℚ :=
  (finalScores (activeComponents listings p (filteredOf listings p))
    (filteredOf listings p).length).map round2

/-- The rows with their `score` and `rank` columns (lines 90–91), before
the final sort. -/
def rankedOf (listings : List Listing) (p : Preferences) : List ScoredListing :=
  ((filteredOf listings p).zip (scoresOf listings p)).map (fun lz =>
    { listing := lz.1, score := lz.2, rank := denseRank (scoresOf listings p) lz.2 })

/-- In `df.to_dict("records")` every record carries a key for every
DataFrame column (a row that lacks the value carries NaN under that key),
so an output record has a given numeric key iff any input dict carries
it. -/
def outputRecordHasKey (listings : List Listing) (f : Listing → Option Val) : Bool :=
  hasCol listings f

/-- `HouseScorer.score_listings` (lines 15–96). An input on which the
Python code raises (the `KeyError` from `df["price"]`, `df["beds"]` or
`df["baths"]` when no input dict carries the key) is modelled by
`Except.error`. -/
def score_listings (listings : List Listing) (p : Preferences) :
    Except String (List ScoredListing) :=
  if listings.isEmpty then Except.ok []
  else if hasCol listings (fun l => l.price) = false then Except.error "KeyError: price"
  else if hasCol listings (fun l => l.beds) = false then Except.error "KeyError: beds"
  else if hasCol listings (fun l => l.baths) = false then Except.error "KeyError: baths"
  else if (filteredOf listings p).isEmpty then Except.ok []
  else Except.ok (sortDesc (rankedOf listings p))

/-- A present numeric field. -/
def numVal (q : ℚ) : Option Val := some (Val.vnum q)

/-! Concrete sample records used to instantiate the theorems below. -/

def Wa : Listing := { price := numVal 100, beds := numVal 1, baths := numVal 1 }

def Wb : Listing := { price := numVal 200, beds := numVal 1, baths := numVal 1 }

/-- Preferences with only the price criterion weighted. -/
def Pprice : Preferences := { priorities := { price := 1 } }

/-- A listing that carries no price key at all. -/
def LnoPrice : Listing := { beds := numVal 3, baths := numVal 2 }

def LnoPrice2 : Listing := { beds := numVal 5, baths := numVal 5 }

/-- Preferences with a negative maximum price. -/
def PnegMax : Preferences := { max_price := some (-5) }

def A5 : Listing := { price := numVal 1, beds := numVal 1, baths := numVal 1, sqft := numVal 10 }

def B5 : Listing := { price := numVal 1, beds := numVal 1, baths := numVal 1, sqft := numVal 10 }

/-- Passes the hard filter but carries no sqft key. -/
def C5l : Listing := { price := numVal 1, beds := numVal 1, baths := numVal 1 }

/-- Preferences with only the size criterion weighted. -/
def Psize : Preferences := { priorities := { size := 1 } }

def L6 : Listing := { price := numVal 4, beds := numVal 3, baths := numVal 2 }

def A7 : Listing := { price := numVal 1, beds := numVal 0, baths := numVal 1 }

def B7 : Listing := { price := numVal 1, beds := numVal 3, baths := numVal 1 }

/-- Preferences with only the bedrooms criterion weighted and no `min_beds`. -/
def Pbeds : Preferences := { priorities := { bedrooms := 1 } }

def A9 : Listing := { price := numVal 1, beds := numVal 1, baths := numVal 1, sqft := numVal 10, attrs := [("address", "1 A St")] }

def B9 : Listing := { price := numVal 1, beds := numVal 1, baths := numVal 1, attrs := [("address", "2 B St")] }

def A10 : Listing := { price := numVal 0, beds := numVal 1, baths := numVal 1 }

def B10 : Listing := { price := numVal 1, beds := numVal 1, baths := numVal 1 }

def C10l : Listing := { price := numVal 199, beds := numVal 1, baths := numVal 1 }

/-- A small price weight, chosen so that two of the weighted sums differ
by less than the rounding granularity yet round apart. -/
def Ptiny : Preferences := { priorities := { price := 1 / 100 } }

/-- Hard constraints satisfied by `Wa`. -/
def PW1 : Preferences := { max_price := some 150, min_beds := some 1, min_baths := some 1 }

/-! ## Structural lemmas about the embedding -/

theorem mem_insertDesc {a x : ScoredListing} :
    ∀ {l : List ScoredListing}, a ∈ insertDesc x l ↔ a = x ∨ a ∈ l := by
  intro l
  induction l with
  | nil => simp [insertDesc]
  | cons y ys ih =>
      unfold insertDesc
      split
      · simp only [List.mem_cons, ih]
        tauto
      · simp only [List.mem_cons]

theorem mem_sortDesc {a : ScoredListing} :
    ∀ {l : List ScoredListing}, a ∈ sortDesc l ↔ a ∈ l := by
  intro l
  induction l with
  | nil => simp [sortDesc]
  | cons y ys ih => simp [sortDesc, mem_insertDesc, ih]

theorem pairwise_insertDesc {x : ScoredListing} {l : List ScoredListing}
    (h : l.Pairwise (fun a b => b.score ≤ a.score)) :
    (insertDesc x l).Pairwise (fun a b => b.score ≤ a.score) := by
  induction l with
  | nil => simp [insertDesc]
  | cons y ys ih =>
      rcases List.pairwise_cons.1 h with ⟨hy, hys⟩
      unfold insertDesc
      split
      · refine List.pairwise_cons.2 ⟨?_, ih hys⟩
        intro z hz
        rcases mem_insertDesc.1 hz with rfl | hz
        · exact le_of_lt (by assumption)
        · exact hy z hz
      · refine List.pairwise_cons.2 ⟨?_, h⟩
        intro z hz
        rcases List.mem_cons.1 hz with rfl | hz
        · exact le_of_not_lt (by assumption)
        · exact le_trans (hy z hz) (le_of_not_lt (by assumption))

theorem pairwise_sortDesc :
    ∀ (l : List ScoredListing), (sortDesc l).Pairwise (fun a b => b.score ≤ a.score) := by
  intro l
  induction l with
  | nil => simp [sortDesc]
  | cons y ys ih => exact pairwise_insertDesc ih

theorem normalize_length (xs : List (Option ℚ)) : (normalize xs).length = xs.length := by
  unfold normalize
  split
  · simp
  · split
    · split <;> simp
    · simp

theorem invScore_length (ns : List (Option ℚ)) : (invScore ns).length = ns.length := by
  simp [invScore]

theorem posScore_length (ns : List (Option ℚ)) : (posScore ns).length = ns.length := by
  simp [posScore]

theorem bedroomComponent_length (p : Preferences) (F : List Listing) :
    (bedroomComponent p F).length = F.length := by
  simp [bedroomComponent, invScore_length, normalize_length]

theorem activeComponents_length {listings : List Listing} {p : Preferences}
    {F : List Listing} : ∀ c ∈ activeComponents listings p F, c.2.length = F.length := by
  intro c hc
  unfold activeComponents at hc
  simp only [List.mem_append] at hc
  rcases hc with ((((hc | hc) | hc) | hc) | hc) <;>
    (split at hc <;> simp only [List.mem_singleton, List.not_mem_nil] at hc) <;>
    (subst hc
     simp [invScore_length, posScore_length, bedroomComponent_length, normalize_length])

theorem finalScoresAux_length :
    ∀ (comps : List (ℚ × List (Option ℚ))) (acc : List ℚ) (n : ℕ),
      acc.length = n → (∀ c ∈ comps, c.2.length = n) →
      (finalScoresAux comps acc).length = n := by
  intro comps
  induction comps with
  | nil => intro acc n h _; simpa [finalScoresAux] using h
  | cons wc rest ih =>
      intro acc n hacc hall
      unfold finalScoresAux
      apply ih
      · rw [List.length_zipWith, hacc, hall wc (by simp)]
        exact min_self n
      · intro c hc
        exact hall c (by simp [hc])

theorem finalScores_length {comps : List (ℚ × List (Option ℚ))} {n : ℕ}
    (h : ∀ c ∈ comps, c.2.length = n) : (finalScores comps n).length = n :=
  finalScoresAux_length comps (List.replicate n 0) n (by simp) h

theorem scoresOf_length (listings : List Listing) (p : Preferences) :
    (scoresOf listings p).length = (filteredOf listings p).length := by
  unfold scoresOf
  rw [List.length_map]
  exact finalScores_length activeComponents_length

theorem mem_zip_exists_index {α β : Type} :
    ∀ {l₁ : List α} {l₂ : List β} {a : α} {b : β}, (a, b) ∈ l₁.zip l₂ →
      ∃ i : ℕ, l₁[i]? = some a ∧ l₂[i]? = some b := by
  intro l₁
  induction l₁ with
  | nil => intro l₂ a b h; simp [List.zip] at h
  | cons x xs ih =>
      intro l₂ a b h
      cases l₂ with
      | nil => simp [List.zip] at h
      | cons y ys =>
          rcases List.mem_cons.1 h with heq | htl
          · exact ⟨0, by simp [Prod.ext_iff] at heq; simp [heq.1, heq.2]⟩
          · rcases ih htl with ⟨i, h1, h2⟩
            exact ⟨i + 1, by simpa using h1, by simpa using h2⟩

theorem exists_mem_zip_right {α β : Type} :
    ∀ {l₁ : List α} {l₂ : List β}, l₁.length = l₂.length →
      ∀ b ∈ l₂, ∃ a ∈ l₁, (a, b) ∈ l₁.zip l₂ := by
  intro l₁
  induction l₁ with
  | nil => intro l₂ hlen b hb; cases l₂ <;> simp_all
  | cons x xs ih =>
      intro l₂ hlen b hb
      cases l₂ with
      | nil => simp at hb
      | cons y ys =>
          rcases List.mem_cons.1 hb with rfl | hb
          · exact ⟨x, by simp, by simp⟩
          · rcases ih (by simpa using hlen) b hb with ⟨a, ha, hmem⟩
            exact ⟨a, by simp [ha], by simp [hmem]⟩

theorem denseRank_anti (scores : List ℚ) {s t : ℚ} (h : s ≤ t) :
    denseRank scores t ≤ denseRank scores s := by
  unfold denseRank
  have hsub : scores.toFinset.filter (fun x => t < x) ⊆
      scores.toFinset.filter (fun x => s < x) := by
    intro x hx
    simp only [Finset.mem_filter] at hx ⊢
    exact ⟨hx.1, lt_of_le_of_lt h hx.2⟩
  exact Nat.add_le_add_left (Finset.card_le_card hsub) 1

theorem denseRank_eq_one_iff (scores : List ℚ) (s : ℚ) :
    denseRank scores s = 1 ↔ ∀ x ∈ scores, x ≤ s := by
  unfold denseRank
  constructor
  · intro h x hx
    by_contra hlt
    push_neg at hlt
    have hmem : x ∈ scores.toFinset.filter (fun x => s < x) :=
      Finset.mem_filter.2 ⟨List.mem_toFinset.2 hx, hlt⟩
    have hpos : 0 < (scores.toFinset.filter (fun x => s < x)).card :=
      Finset.card_pos.2 ⟨x, hmem⟩
    omega
  · intro h
    have hempty : scores.toFinset.filter (fun x => s < x) = ∅ := by
      refine Finset.filter_eq_empty_iff.2 ?_
      intro x hx
      exact not_lt.2 (h x (List.mem_toFinset.1 hx))
    rw [hempty]
    simp

theorem denseRank_pred (scores : List ℚ) (s : ℚ) (h : 1 < denseRank scores s) :
    ∃ m ∈ scores, s < m ∧ denseRank scores m + 1 = denseRank scores s := by
  have hcard : 0 < (scores.toFinset.filter (fun x => s < x)).card := by
    unfold denseRank at h
    omega
  have hne : (scores.toFinset.filter (fun x => s < x)).Nonempty :=
    Finset.card_pos.1 hcard
  set m := (scores.toFinset.filter (fun x => s < x)).min' hne with hm
  have hmG : m ∈ scores.toFinset.filter (fun x => s < x) :=
    Finset.min'_mem _ hne
  have hm1 := Finset.mem_filter.1 hmG
  refine ⟨m, List.mem_toFinset.1 hm1.1, hm1.2, ?_⟩
  have key : scores.toFinset.filter (fun x => m < x) =
      (scores.toFinset.filter (fun x => s < x)).erase m := by
    ext x
    simp only [Finset.mem_filter, Finset.mem_erase]
    constructor
    · rintro ⟨hx1, hx2⟩
      exact ⟨ne_of_gt hx2, hx1, lt_trans hm1.2 hx2⟩
    · rintro ⟨hne', hx1, hx2⟩
      refine ⟨hx1, lt_of_le_of_ne ?_ (Ne.symm hne')⟩
      exact Finset.min'_le _ x (Finset.mem_filter.2 ⟨hx1, hx2⟩)
  unfold denseRank
  rw [key, Finset.card_erase_of_mem hmG]
  omega

theorem score_listings_ok_cases {listings : List Listing} {p : Preferences}
    {out : List ScoredListing} (h : score_listings listings p = Except.ok out) :
    out = [] ∨ out = sortDesc (rankedOf listings p) := by
  unfold score_listings at h
  split at h
  · exact Or.inl (by injection h with h; exact h.symm)
  · split at h
    · exact absurd h (by simp)
    · split at h
      · exact absurd h (by simp)
      · split at h
        · exact absurd h (by simp)
        · split at h
          · exact Or.inl (by injection h with h; exact h.symm)
          · exact Or.inr (by injection h with h; exact h.symm)

theorem mem_rankedOf {listings : List Listing} {p : Preferences}
    {r : ScoredListing} (h : r ∈ rankedOf listings p) :
    r.listing ∈ filteredOf listings p ∧ r.score ∈ scoresOf listings p ∧
      r.rank = denseRank (scoresOf listings p) r.score := by
  unfold rankedOf at h
  rcases List.mem_map.1 h with ⟨lz, hlz, rfl⟩
  rcases mem_zip_exists_index hlz with ⟨i, h1, h2⟩
  exact ⟨List.getElem?_mem h1, List.getElem?_mem h2, rfl⟩

theorem scoresOf_mem_rankedOf {listings : List Listing} {p : Preferences}
    {s : ℚ} (h : s ∈ scoresOf listings p) :
    ∃ r ∈ rankedOf listings p, r.score = s := by
  rcases exists_mem_zip_right (scoresOf_length listings p).symm s h with ⟨l, _, hmem⟩
  refine ⟨{ listing := l, score := s, rank := denseRank (scoresOf listings p) s }, ?_, rfl⟩
  unfold rankedOf
  exact List.mem_map.2 ⟨(l, s), hmem, rfl⟩

theorem mem_out_iff_mem_rankedOf {listings : List Listing} {p : Preferences}
    {out : List ScoredListing} (h : score_listings listings p = Except.ok out)
    (hne : out ≠ []) : ∀ r, r ∈ out ↔ r ∈ rankedOf listings p := by
  rcases score_listings_ok_cases h with rfl | rfl
  · exact absurd rfl hne
  · intro r
    exact mem_sortDesc

theorem passesFilter_spec {p : Preferences} {l : Listing}
    (h : passesFilter p l = true) :
    ∃ pr b ba, numOf l.price = some pr ∧ numOf l.beds = some b ∧
      numOf l.baths = some ba ∧ (∀ m, p.max_price = some m → pr ≤ m) ∧
      p.min_beds.getD 0 ≤ b ∧ p.min_baths.getD 0 ≤ ba := by
  unfold passesFilter at h
  simp only [Bool.and_eq_true] at h
  obtain ⟨⟨h1, h2⟩, h3⟩ := h
  obtain ⟨b, hb, hble⟩ : ∃ b, numOf l.beds = some b ∧ p.min_beds.getD 0 ≤ b := by
    rcases hbeds : numOf l.beds with _ | b <;> rw [hbeds] at h2 <;> simp at h2
    exact ⟨b, rfl, h2⟩
  obtain ⟨ba, hba, hbale⟩ : ∃ ba, numOf l.baths = some ba ∧ p.min_baths.getD 0 ≤ ba := by
    rcases hbaths : numOf l.baths with _ | ba <;> rw [hbaths] at h3 <;> simp at h3
    exact ⟨ba, rfl, h3⟩
  obtain ⟨pr, hpr, hprle⟩ :
      ∃ pr, numOf l.price = some pr ∧ ∀ m, p.max_price = some m → pr ≤ m := by
    rcases hprice : numOf l.price with _ | pr <;>
      rcases hmax : p.max_price with _ | m <;>
      rw [hprice, hmax] at h1 <;> simp at h1
    · exact ⟨pr, rfl, fun m' hm' => by simp at hm'⟩
    · refine ⟨pr, rfl, fun m' hm' => ?_⟩
      injection hm' with e
      exact e ▸ h1
  exact ⟨pr, b, ba, hpr, hb, hba, hprle, hble, hbale⟩

/-- C1: every listing returned by `score_listings` carries numeric price,
beds and baths and satisfies all three hard constraints — price at most
`max_price` (unbounded when absent), beds at least `min_beds` (zero when
absent), baths at least `min_baths` (zero when absent); a listing whose
price, beds or baths is missing can therefore never appear in the
output. -/
theorem score_listings_filter_invariant (listings : List Listing) (p : Preferences)
    (out : List ScoredListing) (hok : score_listings listings p = Except.ok out)
    (r : ScoredListing) (hr : r ∈ out) :
    ∃ pr b ba, numOf r.listing.price = some pr ∧ numOf r.listing.beds = some b ∧
      numOf r.listing.baths = some ba ∧ (∀ m, p.max_price = some m → pr ≤ m) ∧
      p.min_beds.getD 0 ≤ b ∧ p.min_baths.getD 0 ≤ ba := by
  rcases score_listings_ok_cases hok with rfl | rfl
  · cases hr
  · have hmem := mem_sortDesc.1 hr
    have hfil := (mem_rankedOf hmem).1
    unfold filteredOf at hfil
    exact passesFilter_spec (List.of_mem_filter hfil)

theorem score_listings_filter_invariant_witness :
    ∃ pr b ba,
      numOf (ScoredListing.mk Wa 0 1).listing.price = some pr ∧
      numOf (ScoredListing.mk Wa 0 1).listing.beds = some b ∧
      numOf (ScoredListing.mk Wa 0 1).listing.baths = some ba ∧
      (∀ m, PW1.max_price = some m → pr ≤ m) ∧
      PW1.min_beds.getD 0 ≤ b ∧ PW1.min_baths.getD 0 ≤ ba :=
  score_listings_filter_invariant [Wa] PW1 [ScoredListing.mk Wa 0 1]
    (by with_unfolding_all rfl) (ScoredListing.mk Wa 0 1) (by decide)

/-- C2 counterexample: on a well-formed input in which no listing carries
the `price` key (here a single listing with numeric beds and baths), the
code raises a `KeyError` from `df["price"]` instead of returning a
result. -/
theorem score_listings_missing_price_column_raises :
    score_listings [LnoPrice] {} = Except.error "KeyError: price" := by
  rfl

/-- C2 amended: `score_listings` returns a result (never raises) on every
well-formed input whose collection is empty or in which each of the
`price`, `beds` and `baths` keys is carried by at least one listing; in
particular it tolerates missing optional numeric fields, all-zero
weights and weights that do not sum to one. -/
theorem score_listings_total_of_columns (listings : List Listing) (p : Preferences)
    (h : listings = [] ∨ (hasCol listings (fun l => l.price) = true ∧
      hasCol listings (fun l => l.beds) = true ∧
      hasCol listings (fun l => l.baths) = true)) :
    ∃ out, score_listings listings p = Except.ok out := by
  rcases h with rfl | ⟨h1, h2, h3⟩
  · exact ⟨[], rfl⟩
  · unfold score_listings
    split
    · exact ⟨[], rfl⟩
    · split
      · next hcond => rw [h1] at hcond; simp at hcond
      · split
        · next hcond => rw [h2] at hcond; simp at hcond
        · split
          · next hcond => rw [h3] at hcond; simp at hcond
          · split
            · exact ⟨[], rfl⟩
            · exact ⟨_, rfl⟩

theorem score_listings_total_of_columns_witness :
    ∃ out, score_listings [C5l] Pprice = Except.ok out :=
  score_listings_total_of_columns [C5l] Pprice
    (Or.inr ⟨by decide, by decide, by decide⟩)

/-- C8 counterexample: a non-empty collection in which no listing passes
the hard filter (every listing lacks the price key, and the maximum
price is negative besides) makes the code raise a `KeyError` instead of
returning the empty sequence. -/
theorem score_listings_unfiltered_error_counterexample :
    (∀ l ∈ [LnoPrice2], passesFilter PnegMax l = false) ∧
    score_listings [LnoPrice2] PnegMax = Except.error "KeyError: price" :=
  ⟨by decide, by rfl⟩

/-- C8 amended: `score_listings` on the empty collection returns the
empty sequence, and on any collection in which each of `price`, `beds`
and `baths` is carried by at least one listing and no listing passes the
hard filter (including under degenerate constraints such as a negative
`max_price`) it returns the empty sequence without error. -/
theorem score_listings_empty_result_cases :
    (∀ p : Preferences, score_listings [] p = Except.ok []) ∧
    (∀ (listings : List Listing) (p : Preferences),
      hasCol listings (fun l => l.price) = true →
      hasCol listings (fun l => l.beds) = true →
      hasCol listings (fun l => l.baths) = true →
      filteredOf listings p = [] → score_listings listings p = Except.ok []) := by
  constructor
  · intro p
    rfl
  · intro listings p h1 h2 h3 hfil
    unfold score_listings
    split
    · rfl
    · split
      · next hcond => rw [h1] at hcond; simp at hcond
      · split
        · next hcond => rw [h2] at hcond; simp at hcond
        · split
          · next hcond => rw [h3] at hcond; simp at hcond
          · split
            · rfl
            · next hcond => rw [hfil] at hcond; simp at hcond

theorem score_listings_empty_result_cases_witness :
    score_listings [] Pprice = Except.ok [] ∧
    score_listings [Wa] PnegMax = Except.ok [] :=
  ⟨score_listings_empty_result_cases.1 Pprice,
   score_listings_empty_result_cases.2 [Wa] PnegMax (by decide) (by decide)
     (by decide) (by decide)⟩

/-- C3: ranking is dense — in every output, listings with equal score
have equal rank; every rank above one is preceded by a listing of rank
exactly one less with strictly greater score (no rank is skipped at
ties); and rank one is held exactly by the listings of maximal score. -/
theorem score_listings_dense_rank (listings : List Listing) (p : Preferences)
    (out : List ScoredListing) (hok : score_listings listings p = Except.ok out) :
    (∀ r ∈ out, ∀ s ∈ out, r.score = s.score → r.rank = s.rank) ∧
    (∀ r ∈ out, 1 < r.rank → ∃ s ∈ out, s.rank + 1 = r.rank ∧ r.score < s.score) ∧
    (∀ r ∈ out, (r.rank = 1 ↔ ∀ s ∈ out, s.score ≤ r.score)) := by
  rcases score_listings_ok_cases hok with rfl | hout
  · refine ⟨?_, ?_, ?_⟩ <;> intro r hr <;> cases hr
  · have hmem : ∀ r : ScoredListing, r ∈ out ↔ r ∈ rankedOf listings p := by
      intro r
      rw [hout]
      exact mem_sortDesc
    refine ⟨?_, ?_, ?_⟩
    · intro r hr s hs heq
      have h1 := (mem_rankedOf ((hmem r).1 hr)).2.2
      have h2 := (mem_rankedOf ((hmem s).1 hs)).2.2
      rw [h1, h2, heq]
    · intro r hr hrank
      obtain ⟨_, _, hrankeq⟩ := mem_rankedOf ((hmem r).1 hr)
      rw [hrankeq] at hrank ⊢
      obtain ⟨m, hm_mem, hm_lt, hm_rank⟩ :=
        denseRank_pred (scoresOf listings p) r.score hrank
      obtain ⟨s, hs_mem, hs_score⟩ := scoresOf_mem_rankedOf hm_mem
      refine ⟨s, (hmem s).2 hs_mem, ?_, ?_⟩
      · rw [(mem_rankedOf hs_mem).2.2, hs_score]
        exact hm_rank
      · rw [hs_score]
        exact hm_lt
    · intro r hr
      obtain ⟨_, _, hrankeq⟩ := mem_rankedOf ((hmem r).1 hr)
      rw [hrankeq, denseRank_eq_one_iff]
      constructor
      · intro h s hs
        exact h s.score (mem_rankedOf ((hmem s).1 hs)).2.1
      · intro h x hx
        obtain ⟨s, hs_mem, hs_score⟩ := scoresOf_mem_rankedOf hx
        have := h s ((hmem s).2 hs_mem)
        rw [hs_score] at this
        exact this

theorem score_listings_dense_rank_witness :
    (∀ r ∈ [ScoredListing.mk Wa 100 1, ScoredListing.mk Wb 0 2],
      ∀ s ∈ [ScoredListing.mk Wa 100 1, ScoredListing.mk Wb 0 2],
        r.score = s.score → r.rank = s.rank) ∧
    (∀ r ∈ [ScoredListing.mk Wa 100 1, ScoredListing.mk Wb 0 2], 1 < r.rank →
      ∃ s ∈ [ScoredListing.mk Wa 100 1, ScoredListing.mk Wb 0 2],
        s.rank + 1 = r.rank ∧ r.score < s.score) ∧
    (∀ r ∈ [ScoredListing.mk Wa 100 1, ScoredListing.mk Wb 0 2],
      (r.rank = 1 ↔ ∀ s ∈ [ScoredListing.mk Wa 100 1, ScoredListing.mk Wb 0 2],
        s.score ≤ r.score)) :=
  score_listings_dense_rank [Wa, Wb] Pprice
    [ScoredListing.mk Wa 100 1, ScoredListing.mk Wb 0 2]
    (by with_unfolding_all rfl)

/-- C4: the output sequence is sorted by non-increasing score, and rank
is non-decreasing along it: for positions `i < j`, the score at `j` is at
most the score at `i` and the rank at `i` is at most the rank at `j`. -/
theorem score_listings_sorted (listings : List Listing) (p : Preferences)
    (out : List ScoredListing) (hok : score_listings listings p = Except.ok out) :
    ∀ (i j : ℕ) (hi : i < out.length) (hj : j < out.length), i < j →
      (out.get ⟨j, hj⟩).score ≤ (out.get ⟨i, hi⟩).score ∧
      (out.get ⟨i, hi⟩).rank ≤ (out.get ⟨j, hj⟩).rank := by
  intro i j hi hj hij
  rcases score_listings_ok_cases hok with rfl | hout
  · simp at hi
  · have hpw : out.Pairwise (fun a b => b.score ≤ a.score) := by
      rw [hout]
      exact pairwise_sortDesc (rankedOf listings p)
    have hscore := List.pairwise_iff_get.1 hpw ⟨i, hi⟩ ⟨j, hj⟩ hij
    refine ⟨hscore, ?_⟩
    obtain ⟨a, ha, hma⟩ : ∃ a, a = out.get ⟨i, hi⟩ ∧ a ∈ out :=
      ⟨_, rfl, List.get_mem out i hi⟩
    obtain ⟨b, hb, hmb⟩ : ∃ b, b = out.get ⟨j, hj⟩ ∧ b ∈ out :=
      ⟨_, rfl, List.get_mem out j hj⟩
    rw [← ha, ← hb] at hscore ⊢
    rw [hout] at hma hmb
    rw [(mem_rankedOf (mem_sortDesc.1 hma)).2.2,
      (mem_rankedOf (mem_sortDesc.1 hmb)).2.2]
    exact denseRank_anti (scoresOf listings p) hscore

theorem score_listings_sorted_witness :
    (([ScoredListing.mk Wa 100 1, ScoredListing.mk Wb 0 2].get ⟨1, by decide⟩).score ≤
      ([ScoredListing.mk Wa 100 1, ScoredListing.mk Wb 0 2].get ⟨0, by decide⟩).score) ∧
    (([ScoredListing.mk Wa 100 1, ScoredListing.mk Wb 0 2].get ⟨0, by decide⟩).rank ≤
      ([ScoredListing.mk Wa 100 1, ScoredListing.mk Wb 0 2].get ⟨1, by decide⟩).rank) :=
  score_listings_sorted [Wa, Wb] Pprice
    [ScoredListing.mk Wa 100 1, ScoredListing.mk Wb 0 2]
    (by with_unfolding_all rfl) 0 1 (by decide) (by decide) (by decide)

theorem normalize_none_of_not_stdIsZero {xs : List (Option ℚ)} {i : ℕ}
    (hstd : stdIsZero xs = false) (hmiss : xs[i]? = some none) :
    (normalize xs)[i]? = some none := by
  have hilt : i < xs.length := by
    by_contra hge
    push_neg at hge
    rw [List.getElem?_eq_none hge] at hmiss
    cases hmiss
  have hlen : (xs.length == 0) = false := by
    simp only [beq_eq_false_iff_ne, ne_eq]
    omega
  unfold normalize
  rw [hstd, hlen]
  simp only [Bool.or_self, Bool.false_eq_true, if_false]
  split
  · split
    · rw [List.getElem?_map, hmiss]
      rfl
    · rw [List.getElem?_map, hmiss]
      rfl
  · rw [List.getElem?_map, hmiss]
    rfl

/-- C5 counterexample: with only the size criterion active (weight 1),
listings `A5, B5` carrying `sqft = 1000` and `C5l` lacking sqft, all
three pass the filter and the sqft series has zero variance, so
`_normalize` returns a zero series: the component used for `C5l` is `0`
(its final score is `0`, not `50`) — the neutral-50 fallback is not
applied even though `C5l` lacks the attribute and others carry it. -/
theorem missing_component_zero_counterexample :
    numOf C5l.sqft = none ∧ numOf B5.sqft = some 10 ∧
    filteredOf [A5, B5, C5l] Psize = [A5, B5, C5l] ∧
    activeComponents [A5, B5, C5l] Psize [A5, B5, C5l] =
      [(1, [some 0, some 0, some 0])] ∧
    score_listings [A5, B5, C5l] Psize =
      Except.ok [ScoredListing.mk A5 0 1, ScoredListing.mk B5 0 1,
        ScoredListing.mk C5l 0 1] :=
  ⟨rfl, rfl, by with_unfolding_all rfl, by with_unfolding_all rfl,
    by with_unfolding_all rfl⟩

/-- C5 amended: the neutral-50 fallback holds for the size and location
criteria only on the normalization-formula path — when the series'
sample standard deviation is not zero, a listing whose attribute entry
is NaN keeps NaN through `_normalize` and the summation loop substitutes
exactly `50` (contributing `50 * weight`); when the present values are
constant (`std == 0`) every entry, missing ones included, becomes the
zero-variance component instead, and the age criterion never reaches the
fallback because missing `year_built` is imputed as 1900 beforehand. -/
theorem missing_component_fallback_fifty (xs : List (Option ℚ)) (w : ℚ) (i : ℕ)
    (hstd : stdIsZero xs = false) (hmiss : xs[i]? = some none) :
    (finalScores [(w, posScore (normalize xs))] xs.length)[i]? = some (0 + 50 * w) ∧
    (finalScores [(w, invScore (normalize xs))] xs.length)[i]? = some (0 + 50 * w) := by
  have hilt : i < xs.length := by
    by_contra hge
    push_neg at hge
    rw [List.getElem?_eq_none hge] at hmiss
    cases hmiss
  have hnorm := normalize_none_of_not_stdIsZero hstd hmiss
  constructor
  · show (List.zipWith _ (List.replicate xs.length 0) (posScore (normalize xs)))[i]? = _
    rw [List.getElem?_zipWith']
    rw [List.getElem?_replicate_of_lt hilt]
    unfold posScore
    rw [List.getElem?_map, hnorm]
    rfl
  · show (List.zipWith _ (List.replicate xs.length 0) (invScore (normalize xs)))[i]? = _
    rw [List.getElem?_zipWith']
    rw [List.getElem?_replicate_of_lt hilt]
    unfold invScore
    rw [List.getElem?_map, hnorm]
    rfl

theorem missing_component_fallback_fifty_witness :
    (finalScores [(2, posScore (normalize [some 1, some 2, none]))]
      [some 1, some 2, none].length)[2]? = some (0 + 50 * 2) ∧
    (finalScores [(2, invScore (normalize [some 1, some 2, none]))]
      [some 1, some 2, none].length)[2]? = some (0 + 50 * 2) :=
  missing_component_fallback_fifty [some 1, some 2, none] 2 2
    (by with_unfolding_all decide) rfl

/-- C6 counterexample: a single-listing input with the price criterion
active gets final score `50`, the NaN fallback — not the value `100 - 0 * 100
= 100` that the general normalization formula yields when every
normalized value is `0` (with one element the sample std is NaN, not 0,
so `_normalize` divides by `max - min = 0` and produces NaN). -/
theorem single_listing_fallback_counterexample :
    score_listings [L6] Pprice = Except.ok [ScoredListing.mk L6 50 1] ∧
    (50 : ℚ) ≠ 100 - 0 * 100 :=
  ⟨by with_unfolding_all rfl, by norm_num⟩

/-- C6 amended: when the sample standard deviation of a criterion's
series is zero (at least two present values, all equal), `_normalize`
returns an all-zero series, so every listing gets the identical
component the general formula yields at normalized value 0; a
one-element series instead normalizes to NaN (so the 50 fallback is
used, identical for the single listing); and a single-listing input
always receives rank 1. -/
theorem zero_variance_neutral_component :
    (∀ xs : List (Option ℚ), stdIsZero xs = true →
      normalize xs = xs.map (fun _ => some 0)) ∧
    (∀ x : ℚ, normalize [some x] = [none]) ∧
    (∀ (l : Listing) (p : Preferences) (out : List ScoredListing),
      score_listings [l] p = Except.ok out → ∀ r ∈ out, r.rank = 1 ∧ r.listing = l) := by
  refine ⟨?_, ?_, ?_⟩
  · intro xs h
    unfold normalize
    rw [h]
    simp
  · intro x
    unfold normalize
    simp [stdIsZero, valsOf, seriesMin, seriesMax]
  · intro l p out hok r hr
    rcases score_listings_ok_cases hok with rfl | hout
    · cases hr
    · rw [hout] at hr
      obtain ⟨hfil, hscore, hrank⟩ := mem_rankedOf (mem_sortDesc.1 hr)
      have hl : r.listing = l := by
        unfold filteredOf at hfil
        have := List.mem_filter.1 hfil
        simpa using this.1
      refine ⟨?_, hl⟩
      have hlen : (scoresOf [l] p).length ≤ 1 := by
        rw [scoresOf_length]
        unfold filteredOf
        exact le_trans (List.length_filter_le _ _) (by simp)
      obtain ⟨x, hx⟩ : ∃ x, scoresOf [l] p = [x] := by
        rcases hsc : scoresOf [l] p with _ | ⟨x, _ | ⟨y, tl⟩⟩
        · rw [hsc] at hscore
          cases hscore
        · exact ⟨x, rfl⟩
        · rw [hsc] at hlen
          simp at hlen
      rw [hx] at hscore hrank
      have hxeq : r.score = x := by simpa using hscore
      rw [hrank, hxeq]
      unfold denseRank
      have hemp : ([x].toFinset.filter (fun y => x < y)) = ∅ := by
        refine Finset.filter_eq_empty_iff.2 ?_
        intro y hy
        have : y = x := by simpa using hy
        simp [this]
      rw [hemp]
      simp

theorem zero_variance_neutral_component_witness :
    normalize [some 2, some 2, none] = [some 2, some 2, none].map (fun _ => some 0) ∧
    normalize [some 5] = [none] ∧
    ((ScoredListing.mk L6 50 1).rank = 1 ∧ (ScoredListing.mk L6 50 1).listing = L6) :=
  ⟨zero_variance_neutral_component.1 [some 2, some 2, none] (by with_unfolding_all decide),
   zero_variance_neutral_component.2.1 5,
   zero_variance_neutral_component.2.2 L6 Pprice [ScoredListing.mk L6 50 1]
     (by with_unfolding_all rfl) (ScoredListing.mk L6 50 1) (by decide)⟩

/-- C7 counterexample: with `min_beds` absent, the code's bedroom target
defaults to `3`, not `0`: for beds `0` and `3` the code's component is
`[0, 100]` while the spec's zero-default formula gives `[100, 0]`. -/
theorem bedroom_target_counterexample :
    Pbeds.min_beds = none ∧
    filteredOf [A7, B7] Pbeds = [A7, B7] ∧
    bedroomComponent Pbeds [A7, B7] = [some 0, some 100] ∧
    specBedroomComponent Pbeds [A7, B7] = [some 100, some 0] :=
  ⟨rfl, by with_unfolding_all rfl, by with_unfolding_all rfl,
    by with_unfolding_all rfl⟩

/-- C7 amended: the bedroom component is
`100 * (1 - normalize(|beds - target|))` across the filtered set, where
the target is `min_beds` when present but defaults to `3` (not `0`) when
`min_beds` is absent from the preferences. -/
theorem bedroomComponent_formula :
    (∀ (p : Preferences) (F : List Listing) (t : ℚ), p.min_beds = some t →
      bedroomComponent p F =
        invScore (normalize (F.map (fun l => (numOf l.beds).map (fun b => |b - t|))))) ∧
    (∀ (p : Preferences) (F : List Listing), p.min_beds = none →
      bedroomComponent p F =
        invScore (normalize (F.map (fun l => (numOf l.beds).map (fun b => |b - 3|))))) ∧
    (∀ q : ℚ, 100 - q * 100 = 100 * (1 - q)) := by
  refine ⟨?_, ?_, ?_⟩
  · intro p F t h
    unfold bedroomComponent
    rw [h]
    rfl
  · intro p F h
    unfold bedroomComponent
    rw [h]
    rfl
  · intro q
    ring

theorem bedroomComponent_formula_witness :
    (bedroomComponent PW1 [Wa] =
      invScore (normalize ([Wa].map (fun l => (numOf l.beds).map (fun b => |b - 1|))))) ∧
    (bedroomComponent Pbeds [A7] =
      invScore (normalize ([A7].map (fun l => (numOf l.beds).map (fun b => |b - 3|))))) ∧
    (100 : ℚ) - (1 / 2) * 100 = 100 * (1 - 1 / 2) :=
  ⟨bedroomComponent_formula.1 PW1 [Wa] 1 rfl,
   bedroomComponent_formula.2.1 Pbeds [A7] rfl,
   bedroomComponent_formula.2.2 (1 / 2)⟩

/-- C9 counterexample: `pd.DataFrame` forms the union of all keys and
`to_dict("records")` emits every column for every record, so when `A9`
carries `sqft` and `B9` does not, the output record for `B9` carries an
`sqft` key (holding NaN) that the input record did not have — the output
is augmented with more than just the `score` and `rank` fields. -/
theorem output_key_augmentation_counterexample :
    outputRecordHasKey [A9, B9] (fun l => l.sqft) = true ∧
    B9.sqft = none ∧
    score_listings [A9, B9] Psize =
      Except.ok [ScoredListing.mk A9 50 1, ScoredListing.mk B9 50 1] :=
  ⟨rfl, rfl, by with_unfolding_all rfl⟩

/-- C9 amended: scoring is a pure function of its arguments (the input
collection is never mutated); every output record embeds its input
listing with all fields — numeric and display attributes — unchanged,
augmented with `score` and `rank`; every key present on the input
listing is present on its output record; but a record additionally
carries a NaN-valued key for each column that some other input listing
carries and it lacks. -/
theorem score_listings_preserves_listings (listings : List Listing)
    (p : Preferences) (out : List ScoredListing)
    (hok : score_listings listings p = Except.ok out) :
    ∀ r ∈ out, r.listing ∈ listings ∧
      (∀ f : Listing → Option Val, (f r.listing).isSome = true →
        outputRecordHasKey listings f = true) := by
  intro r hr
  rcases score_listings_ok_cases hok with rfl | hout
  · cases hr
  · rw [hout] at hr
    have hfil := (mem_rankedOf (mem_sortDesc.1 hr)).1
    unfold filteredOf at hfil
    have hmem := (List.mem_filter.1 hfil).1
    refine ⟨hmem, ?_⟩
    intro f hf
    unfold outputRecordHasKey hasCol
    rw [List.any_eq_true]
    exact ⟨r.listing, hmem, hf⟩

theorem score_listings_preserves_listings_witness :
    (ScoredListing.mk B9 50 1).listing ∈ [A9, B9] ∧
    (∀ f : Listing → Option Val,
      (f (ScoredListing.mk B9 50 1).listing).isSome = true →
      outputRecordHasKey [A9, B9] f = true) :=
  score_listings_preserves_listings [A9, B9] Psize
    [ScoredListing.mk A9 50 1, ScoredListing.mk B9 50 1]
    (by with_unfolding_all rfl) (ScoredListing.mk B9 50 1) (by decide)

/-- C10 counterexample: with a price weight of `1/100` and prices
`0, 1, 199`, the exact weighted sums of the first two listings are `1`
and `198/199`, which differ by `1/199 < 1/100` — less than the rounding
granularity — yet they round to `1.00` and `0.99`: the listings receive
different scores and different ranks. -/
theorem rounding_granularity_counterexample :
    finalScores (activeComponents [A10, B10, C10l] Ptiny
        (filteredOf [A10, B10, C10l] Ptiny))
      (filteredOf [A10, B10, C10l] Ptiny).length = [1, 198 / 199, 0] ∧
    |(1 : ℚ) - 198 / 199| < 1 / 100 ∧
    score_listings [A10, B10, C10l] Ptiny =
      Except.ok [ScoredListing.mk A10 1 1, ScoredListing.mk B10 (99 / 100) 2,
        ScoredListing.mk C10l 0 3] ∧
    (1 : ℚ) ≠ 99 / 100 :=
  ⟨by with_unfolding_all rfl,
   by
    have h : |(1 : ℚ) - 198 / 199| = 1 / 199 := by
      rw [abs_of_pos] <;> norm_num
    rw [h]
    norm_num,
   by with_unfolding_all rfl, by norm_num⟩

/-- C10 amended: every returned score is the listing's weighted
component sum rounded half-to-even at two decimals, ranks are dense
ranks computed from these rounded values, and listings whose exact sums
round to the same value (rather than merely lying within the rounding
granularity of each other) receive equal score and hence equal rank. -/
theorem score_listings_rounded_scores (listings : List Listing)
    (p : Preferences) (out : List ScoredListing)
    (hok : score_listings listings p = Except.ok out) :
    (∀ r ∈ out, ∃ (i : ℕ) (q : ℚ),
      (filteredOf listings p)[i]? = some r.listing ∧
      (finalScores (activeComponents listings p (filteredOf listings p))
        (filteredOf listings p).length)[i]? = some q ∧
      r.score = round2 q ∧
      r.rank = denseRank (scoresOf listings p) r.score) ∧
    (∀ r ∈ out, ∀ s ∈ out, r.score = s.score → r.rank = s.rank) := by
  rcases score_listings_ok_cases hok with rfl | hout
  · exact ⟨fun r hr => absurd hr (List.not_mem_nil r),
      fun r hr => absurd hr (List.not_mem_nil r)⟩
  · constructor
    · intro r hr
      rw [hout] at hr
      have hrm := mem_sortDesc.1 hr
      unfold rankedOf at hrm
      rcases List.mem_map.1 hrm with ⟨lz, hlz, rfl⟩
      rcases mem_zip_exists_index hlz with ⟨i, h1, h2⟩
      unfold scoresOf at h2
      rw [List.getElem?_map] at h2
      rcases Option.map_eq_some'.1 h2 with ⟨q, hq, hq2⟩
      exact ⟨i, q, h1, hq, hq2.symm, rfl⟩
    · intro r hr s hs heq
      rw [hout] at hr hs
      rw [(mem_rankedOf (mem_sortDesc.1 hr)).2.2,
        (mem_rankedOf (mem_sortDesc.1 hs)).2.2, heq]

theorem score_listings_rounded_scores_witness :
    ∃ (i : ℕ) (q : ℚ),
      (filteredOf [Wa, Wb] Pprice)[i]? = some (ScoredListing.mk Wa 100 1).listing ∧
      (finalScores (activeComponents [Wa, Wb] Pprice (filteredOf [Wa, Wb] Pprice))
        (filteredOf [Wa, Wb] Pprice).length)[i]? = some q ∧
      (ScoredListing.mk Wa 100 1).score = round2 q ∧
      (ScoredListing.mk Wa 100 1).rank =
        denseRank (scoresOf [Wa, Wb] Pprice) (ScoredListing.mk Wa 100 1).score :=
  (score_listings_rounded_scores [Wa, Wb] Pprice
    [ScoredListing.mk Wa 100 1, ScoredListing.mk Wb 0 2]
    (by with_unfolding_all rfl)).1 (ScoredListing.mk Wa 100 1) (by decide)

end HomePilot
